import Mathlib

/-!
# Verification of the fuse_truncate_history snapshot-chain garbage collector

Shallow embedding of `FuseTruncateHistory::read` and its helpers
(`src/query/src/storages/fuse/table_functions/fuse_history_truncate.rs`).

The state of the object store is modelled as association lists from location
strings to stored objects; Rust `HashSet<String>` values are modelled as
duplicate-free lists built by insertion in first-occurrence order (the set
operations used by the code — `insert`, `extend`, `difference` — depend only
on membership, which the model preserves exactly).  Every store call made by
the operation is recorded in a trace of events, so that ordering and
failure-atomicity properties can be stated about runs.
-/

set_option autoImplicit false

namespace FuseTruncate

/-- A block's physical location, as nested in segment metadata
(`block_meta.location.location` in the source). -/
structure BlockLocation where
  location : String
deriving Repr, DecidableEq

/-- Block metadata entry of a segment (`BlockMeta` in the source); the GC
path only reads its location. -/
structure BlockMeta where
  location : BlockLocation
deriving Repr, DecidableEq

/-- Segment metadata (`SegmentInfo` in the source): an ordered list of block
metadata entries. -/
structure SegmentInfo where
  blocks : List BlockMeta
deriving Repr, DecidableEq

/-- All block locations referenced by a segment. -/
def SegmentInfo.blockLocs (s : SegmentInfo) : List String :=
  s.blocks.map (fun b => b.location.location)

/-- A table snapshot.  The fields `snapshot_id` and `segments` are the ones
read by `FuseTruncateHistory::read`.  The field `prev_snapshot_location` is
modelled from the spec: the snapshot struct itself is outside the given
source files, and the spec states each snapshot carries an optional
back-reference used by the Snapshot History Walker, absence marking the
oldest snapshot. -/
structure Snapshot where
  snapshot_id : String
  segments : List String
  prev_snapshot_location : Option String
deriving Repr, DecidableEq

/-- The result row schema: `{snapshot_removed, segment_removed,
block_removed}`, all unsigned counters. -/
structure Row where
  snapshot_removed : Nat
  segment_removed : Nat
  block_removed : Nat
deriving Repr, DecidableEq

/-- Error taxonomy of the operation (spec §7): a missing location, a decode
failure, and a transient store failure. -/
inductive FuseErr where
  | notFound (loc : String)
  | metadataCorrupt (loc : String)
  | storeErr (loc : String)
deriving Repr, DecidableEq

instance exceptDecEq {ε α : Type} [DecidableEq ε] [DecidableEq α] :
    DecidableEq (Except ε α) := fun x y =>
  match x, y with
  | .ok a, .ok b =>
    if h : a = b then isTrue (by rw [h]) else isFalse (by intro hc; cases hc; exact h rfl)
  | .ok _, .error _ => isFalse (by intro hc; cases hc)
  | .error _, .ok _ => isFalse (by intro hc; cases hc)
  | .error e, .error f =>
    if h : e = f then isTrue (by rw [h]) else isFalse (by intro hc; cases hc; exact h rfl)

/-- A stored segment object: either decodable metadata or corrupt bytes
(decode failure). -/
inductive StoredSeg where
  | ok (info : SegmentInfo)
  | corrupt
deriving Repr, DecidableEq

/-- First-match association-list lookup, the model of reading an object by
location string. -/
def lookupA {α : Type} : List (String × α) → String → Option α
  | [], _ => none
  | (k, v) :: t, x => if k = x then some v else lookupA t x

/-- The object store: snapshot records, segment objects and block objects by
location, plus the set of locations whose removal fails with a transient
store error. -/
structure Store where
  snaps : List (String × Snapshot)
  segs : List (String × StoredSeg)
  blocks : List String
  removeFails : List String
deriving Repr, DecidableEq

/-- Erase a key from an association list. -/
def eraseKey {α : Type} (m : List (String × α)) (loc : String) : List (String × α) :=
  m.filter (fun p => decide (p.1 ≠ loc))

/-- Effect of a successful `remove(location)` on the store: the object at
that location (of whatever kind) is gone; removing a missing location is a
no-op, as the store contract requires. -/
def Store.removeLoc (st : Store) (loc : String) : Store :=
  { snaps := eraseKey st.snaps loc
  , segs := eraseKey st.segs loc
  , blocks := st.blocks.filter (fun b => decide (b ≠ loc))
  , removeFails := st.removeFails }

/-- Reading and decoding a segment object
(`io::read_obj::<SegmentInfo>(da, loc)`). -/
def Store.readSeg (st : Store) (loc : String) : Except FuseErr SegmentInfo :=
  match lookupA st.segs loc with
  | none => .error (.notFound loc)
  | some .corrupt => .error (.metadataCorrupt loc)
  | some (.ok s) => .ok s

/-- A store call made during a run: a snapshot-record read (by the Walker),
a segment-metadata read, or a removal attempt. -/
inductive Event where
  | readSnap (loc : String)
  | readSeg (loc : String)
  | remove (loc : String)
deriving Repr, DecidableEq

/-- `HashSet::insert`: add a string to a set unless already present. -/
def insertStr (acc : List String) (x : String) : List String :=
  if x ∈ acc then acc else acc ++ [x]

/-- `HashSet::extend`: insert every element of a list. -/
def extendStrs (acc : List String) (xs : List String) : List String :=
  xs.foldl insertStr acc

/-- `a.difference(&b)`: the elements of `a` not in `b`. -/
def strDiff (a b : List String) : List String :=
  a.filter (fun x => decide (x ∉ b))

/-- `current_segments`: `HashSet::from_iter(&current_snapshot.segments)`. -/
def current_segments_of (cur : Snapshot) : List String :=
  extendStrs [] cur.segments

/-- `prevs`: the union of `.segments` over the historical snapshots, built
by folding `extend` over an initially empty set. -/
def prevs_of (hist : List Snapshot) : List String :=
  hist.foldl (fun acc s => extendStrs acc s.segments) []

/-- `seg_delta`: `prevs.difference(&current_segments)` — segment locations
referenced only by superseded snapshots. -/
def seg_delta_of (cur : Snapshot) (hist : List Snapshot) : List String :=
  strDiff (prevs_of hist) (current_segments_of cur)

/-- Output of a fallible read-only pass: the trace of store calls made, and
the result. -/
structure ReadOut where
  trace : List Event
  result : Except FuseErr (List String)
deriving Repr

/-- `FuseTruncateHistory::blocks_of`: resolve each segment location to its
block list, inserting every block location into one accumulated set; the
first failing read aborts and propagates its error. -/
def blocks_of (st : Store) : List String → List String → ReadOut
  | [], acc => ⟨[], .ok acc⟩
  | l :: ls, acc =>
    match st.readSeg l with
    | .error e => ⟨[Event.readSeg l], .error e⟩
    | .ok seg =>
      let rest := blocks_of st ls (extendStrs acc seg.blockLocs)
      ⟨Event.readSeg l :: rest.trace, rest.result⟩

/-- Output of a removal phase: trace of removal attempts, resulting store,
and the count of removals on success. -/
structure RemOut where
  trace : List Event
  store : Store
  result : Except FuseErr Nat
deriving Repr

/-- One deletion phase: `for x in locs { remove_location(x)?; count += 1 }`.
The first failing removal aborts the phase and surfaces the store error;
removals already performed stay performed. -/
def removeAll (st : Store) : List String → RemOut
  | [] => ⟨[], st, .ok 0⟩
  | l :: ls =>
    if l ∈ st.removeFails then
      ⟨[Event.remove l], st, .error (.storeErr l)⟩
    else
      let rest := removeAll (st.removeLoc l) ls
      ⟨Event.remove l :: rest.trace, rest.store, rest.result.map (fun n => n + 1)⟩

/-- `snapshot_location(snapshot_id)`: the external deterministic naming
function from snapshot id to location string (spec §6). -/
def snapshot_location (id : String) : String :=
  "_ss/" ++ id

/-- The locations targeted by the snapshot-deletion phase: the historical
snapshots walked in reverse (oldest first), each resolved through
`snapshot_location`. -/
def snap_locs (hist : List Snapshot) : List String :=
  hist.reverse.map (fun s => snapshot_location s.snapshot_id)

/-- Output of a whole run: trace of store calls, final store, and either
the result rows or the first error. -/
structure RunOut where
  trace : List Event
  store : Store
  result : Except FuseErr (List Row)
deriving Repr

/-- The body of `FuseTruncateHistory::read` after the history chain has been
obtained (source lines 168–221): short-circuit to an empty result on a chain
of length ≤ 1; otherwise split off the current snapshot, compute
`seg_delta`, resolve `prev_blocks` and `current_blocks`, compute
`block_delta`, then delete blocks, segments, and historical snapshot records
(oldest first), and return the single counts row. -/
def truncate_run (st : Store) (snapshots : List Snapshot) : RunOut :=
  match snapshots with
  | [] => ⟨[], st, .ok []⟩
  | [_] => ⟨[], st, .ok []⟩
  | current :: hist =>
    let seg_delta := seg_delta_of current hist
    let pb := blocks_of st seg_delta []
    match pb.result with
    | .error e => ⟨pb.trace, st, .error e⟩
    | .ok prev_blocks =>
      let cb := blocks_of st current.segments []
      match cb.result with
      | .error e => ⟨pb.trace ++ cb.trace, st, .error e⟩
      | .ok current_blocks =>
        let block_delta := strDiff prev_blocks current_blocks
        let r1 := removeAll st block_delta
        match r1.result with
        | .error e => ⟨pb.trace ++ cb.trace ++ r1.trace, r1.store, .error e⟩
        | .ok block_removed =>
          let r2 := removeAll r1.store seg_delta
          match r2.result with
          | .error e => ⟨pb.trace ++ cb.trace ++ r1.trace ++ r2.trace, r2.store, .error e⟩
          | .ok segment_removed =>
            let r3 := removeAll r2.store (snap_locs hist)
            match r3.result with
            | .error e =>
              ⟨pb.trace ++ cb.trace ++ r1.trace ++ r2.trace ++ r3.trace, r3.store, .error e⟩
            | .ok _ =>
              ⟨pb.trace ++ cb.trace ++ r1.trace ++ r2.trace ++ r3.trace, r3.store,
                .ok [⟨hist.length, segment_removed, block_removed⟩]⟩

/-- The resolved `block_delta` of a chain as an `Except`: the composition of
the two `blocks_of` reads followed by the set difference. -/
def block_delta_exc (st : Store) (cur : Snapshot) (hist : List Snapshot) :
    Except FuseErr (List String) :=
  match (blocks_of st (seg_delta_of cur hist) []).result with
  | .error e => .error e
  | .ok prev_blocks =>
    match (blocks_of st cur.segments []).result with
    | .error e => .error e
    | .ok current_blocks => .ok (strDiff prev_blocks current_blocks)

/-- The resolved `block_delta` as a plain list (empty when a read fails; in
that case the run performs no removals at all). -/
def block_delta_list (st : Store) (cur : Snapshot) (hist : List Snapshot) : List String :=
  match block_delta_exc st cur hist with
  | .error _ => []
  | .ok bd => bd

/-- Output of the Walker: the trace of snapshot-record reads it performed,
and the resulting chain or first error. -/
structure WalkOut where
  trace : List Event
  result : Except FuseErr (List Snapshot)
deriving Repr

/-- Modelled from the spec: the Snapshot History Walker (`snapshot_history`,
outside the given source files).  Given an optional starting snapshot
location (absent means the table has never been written, chain empty), it
follows back-references, reading each snapshot record from the store, until
one is absent; a referenced location missing from the store is a fatal
`NotFound`.  Each read it performs against the store is recorded in its
trace (spec §4.1: the Walker is purely a sequence of read operations).
Fuel bounds the walk; the spec's no-cycle invariant makes the bound used by
`truncate_read` sufficient. -/
def snapshot_history (st : Store) : Option String → Nat → WalkOut
  | none, _ => ⟨[], .ok []⟩
  | some loc, 0 => ⟨[], .error (.metadataCorrupt loc)⟩
  | some loc, fuel + 1 =>
    match lookupA st.snaps loc with
    | none => ⟨[Event.readSnap loc], .error (.notFound loc)⟩
    | some s =>
      let rest := snapshot_history st s.prev_snapshot_location fuel
      match rest.result with
      | .error e => ⟨Event.readSnap loc :: rest.trace, .error e⟩
      | .ok chain => ⟨Event.readSnap loc :: rest.trace, .ok (s :: chain)⟩

/-- The whole operation (source lines 165–221): rebuild the chain with the
Walker starting from the table's recorded snapshot location, then run the
reachability computation and the deletion phases; the trace records the
Walker's snapshot reads followed by the run's store calls. -/
def truncate_read (st : Store) (snapshot_loc : Option String) : RunOut :=
  match (snapshot_history st snapshot_loc (st.snaps.length + 1)).result with
  | .error e => ⟨(snapshot_history st snapshot_loc (st.snaps.length + 1)).trace, st, .error e⟩
  | .ok chain =>
    ⟨(snapshot_history st snapshot_loc (st.snaps.length + 1)).trace
       ++ (truncate_run st chain).trace,
     (truncate_run st chain).store, (truncate_run st chain).result⟩

/-- The block locations a stored segment object contributes when it decodes
successfully. -/
def StoredSeg.okBlockLocs : StoredSeg → List String
  | .ok sg => sg.blockLocs
  | .corrupt => []

/-! ## Lemmas about the set model -/

theorem mem_insertStr {acc : List String} {y x : String} :
    x ∈ insertStr acc y ↔ x ∈ acc ∨ x = y := by
  unfold insertStr
  split
  · rename_i h
    exact ⟨Or.inl, fun hor => hor.elim id (fun hxy => hxy ▸ h)⟩
  · simp [List.mem_append]

theorem nodup_insertStr {acc : List String} {y : String} (h : acc.Nodup) :
    (insertStr acc y).Nodup := by
  unfold insertStr
  split
  · exact h
  · rename_i hy
    rw [← List.concat_eq_append]
    exact List.Nodup.concat hy h

theorem mem_extendStrs {xs acc : List String} {x : String} :
    x ∈ extendStrs acc xs ↔ x ∈ acc ∨ x ∈ xs := by
  induction xs generalizing acc with
  | nil => simp [extendStrs]
  | cons y ys ih =>
    show x ∈ extendStrs (insertStr acc y) ys ↔ _
    rw [ih, mem_insertStr]
    simp [List.mem_cons]
    tauto

theorem nodup_extendStrs {xs acc : List String} (h : acc.Nodup) :
    (extendStrs acc xs).Nodup := by
  induction xs generalizing acc with
  | nil => exact h
  | cons y ys ih => exact ih (nodup_insertStr h)

theorem mem_strDiff {a b : List String} {x : String} :
    x ∈ strDiff a b ↔ x ∈ a ∧ x ∉ b := by
  simp [strDiff, List.mem_filter]

theorem nodup_strDiff {a b : List String} (h : a.Nodup) : (strDiff a b).Nodup :=
  h.filter _

theorem mem_foldl_extend {hist : List Snapshot} {acc : List String} {x : String} :
    x ∈ hist.foldl (fun acc s => extendStrs acc s.segments) acc ↔
      x ∈ acc ∨ ∃ s ∈ hist, x ∈ s.segments := by
  induction hist generalizing acc with
  | nil => simp
  | cons s t ih =>
    show x ∈ t.foldl _ (extendStrs acc s.segments) ↔ _
    rw [ih, mem_extendStrs]
    simp [List.mem_cons]
    tauto

theorem nodup_foldl_extend {hist : List Snapshot} {acc : List String} (h : acc.Nodup) :
    (hist.foldl (fun acc s => extendStrs acc s.segments) acc).Nodup := by
  induction hist generalizing acc with
  | nil => exact h
  | cons s t ih => exact ih (nodup_extendStrs h)

theorem mem_prevs_of {hist : List Snapshot} {x : String} :
    x ∈ prevs_of hist ↔ ∃ s ∈ hist, x ∈ s.segments := by
  unfold prevs_of
  rw [mem_foldl_extend]
  simp

theorem nodup_prevs_of {hist : List Snapshot} : (prevs_of hist).Nodup :=
  nodup_foldl_extend List.nodup_nil

theorem mem_current_segments {cur : Snapshot} {x : String} :
    x ∈ current_segments_of cur ↔ x ∈ cur.segments := by
  unfold current_segments_of
  rw [mem_extendStrs]
  simp

theorem mem_seg_delta {cur : Snapshot} {hist : List Snapshot} {x : String} :
    x ∈ seg_delta_of cur hist ↔ (∃ s ∈ hist, x ∈ s.segments) ∧ x ∉ cur.segments := by
  unfold seg_delta_of
  rw [mem_strDiff, mem_prevs_of, mem_current_segments]

theorem nodup_seg_delta {cur : Snapshot} {hist : List Snapshot} :
    (seg_delta_of cur hist).Nodup :=
  nodup_strDiff nodup_prevs_of

/-! ## Lemmas about the store -/

theorem lookupA_mem {α : Type} {m : List (String × α)} {x : String} {v : α}
    (h : lookupA m x = some v) : (x, v) ∈ m := by
  induction m with
  | nil => simp [lookupA] at h
  | cons p t ih =>
    rw [lookupA] at h
    split at h
    · rename_i heq
      cases h
      simp [← heq]
    · simp [List.mem_cons]
      exact Or.inr (ih h)

theorem lookupA_eraseKey {α : Type} {m : List (String × α)} {loc x : String}
    (h : x ≠ loc) : lookupA (eraseKey m loc) x = lookupA m x := by
  induction m with
  | nil => rfl
  | cons p t ih =>
    by_cases hp : p.1 = loc
    · have : eraseKey (p :: t) loc = eraseKey t loc := by
        simp [eraseKey, hp]
      rw [this, ih, lookupA]
      have : ¬ p.1 = x := fun hc => h (hc ▸ hp ▸ rfl)
      simp [this]
    · have : eraseKey (p :: t) loc = p :: eraseKey t loc := by
        simp [eraseKey, hp]
      rw [this, lookupA, lookupA]
      split
      · rfl
      · exact ih

theorem removeLoc_removeFails (st : Store) (loc : String) :
    (st.removeLoc loc).removeFails = st.removeFails := rfl

theorem lookupA_removeLoc_snaps {st : Store} {loc x : String} (h : x ≠ loc) :
    lookupA (st.removeLoc loc).snaps x = lookupA st.snaps x :=
  lookupA_eraseKey h

/-- Reading a segment successfully means the store holds a decodable segment
object at that location. -/
theorem readSeg_ok_mem {st : Store} {loc : String} {sg : SegmentInfo}
    (h : st.readSeg loc = .ok sg) :
    ∃ p ∈ st.segs, p.2.okBlockLocs = sg.blockLocs := by
  unfold Store.readSeg at h
  split at h
  · exact absurd h (by simp)
  · exact absurd h (by simp)
  · rename_i v hv
    cases h
    exact ⟨_, lookupA_mem hv, rfl⟩

/-! ## Lemmas about `blocks_of` -/

theorem blocksOf_trace_reads {st : Store} :
    ∀ {locs acc : List String} {ev : Event}, ev ∈ (blocks_of st locs acc).trace →
      ∃ l ∈ locs, ev = Event.readSeg l := by
  intro locs
  induction locs with
  | nil => intro acc ev h; simp [blocks_of] at h
  | cons l ls ih =>
    intro acc ev h
    rw [blocks_of] at h
    split at h
    · simp at h
      exact ⟨l, by simp, h⟩
    · simp at h
      rcases h with h | h
      · exact ⟨l, by simp, h⟩
      · obtain ⟨l2, hl2, hev⟩ := ih h
        exact ⟨l2, by simp [hl2], hev⟩

theorem blocksOf_ok_trace {st : Store} :
    ∀ {locs acc bs : List String}, (blocks_of st locs acc).result = .ok bs →
      (blocks_of st locs acc).trace = locs.map Event.readSeg := by
  intro locs
  induction locs with
  | nil => intro acc bs _; rfl
  | cons l ls ih =>
    intro acc bs h
    rw [blocks_of] at h ⊢
    split at h
    · exact absurd h (by simp)
    · rename_i sg hsg
      simp only [List.map_cons, hsg]
      simp only at h
      rw [ih h]

/-- Every element of a successful `blocks_of` result is either in the initial
accumulator or a block location of some decodable segment object in the
store. -/
theorem blocksOf_ok_mem {st : Store} :
    ∀ {locs acc bs : List String}, (blocks_of st locs acc).result = .ok bs →
      ∀ x ∈ bs, x ∈ acc ∨ ∃ p ∈ st.segs, x ∈ p.2.okBlockLocs := by
  intro locs
  induction locs with
  | nil =>
    intro acc bs h x hx
    rw [blocks_of] at h
    cases h
    exact Or.inl hx
  | cons l ls ih =>
    intro acc bs h x hx
    rw [blocks_of] at h
    split at h
    · exact absurd h (by simp)
    · rename_i sg hsg
      simp only at h
      rcases ih h x hx with hacc | hst
      · rw [mem_extendStrs] at hacc
        rcases hacc with hacc | hblk
        · exact Or.inl hacc
        · obtain ⟨p, hp, hpl⟩ := readSeg_ok_mem hsg
          exact Or.inr ⟨p, hp, hpl ▸ hblk⟩
      · exact Or.inr hst

/-- `blocks_of` never fails with a transient store error: its errors come
from `readSeg`, which produces `notFound` or `metadataCorrupt`. -/
theorem blocksOf_error_kind {st : Store} :
    ∀ {locs acc : List String} {e : FuseErr}, (blocks_of st locs acc).result = .error e →
      ∃ l, e = .notFound l ∨ e = .metadataCorrupt l := by
  intro locs
  induction locs with
  | nil => intro acc e h; exact absurd h (by simp [blocks_of])
  | cons l ls ih =>
    intro acc e h
    rw [blocks_of] at h
    split at h
    · rename_i e2 he2
      simp only at h
      cases h
      unfold Store.readSeg at he2
      split at he2
      · cases he2; exact ⟨l, Or.inl rfl⟩
      · cases he2; exact ⟨l, Or.inr rfl⟩
      · exact absurd he2 (by simp)
    · simp only at h
      exact ih h

/-! ## Lemmas about `removeAll` -/

theorem removeAll_removeFails (st : Store) :
    ∀ locs : List String, (removeAll st locs).store.removeFails = st.removeFails := by
  intro locs
  induction locs generalizing st with
  | nil => rfl
  | cons l ls ih =>
    rw [removeAll]
    split
    · rfl
    · simp only
      rw [ih (st.removeLoc l), removeLoc_removeFails]

theorem removeAll_trace_mem {st : Store} :
    ∀ {locs : List String} {ev : Event}, ev ∈ (removeAll st locs).trace →
      ∃ l ∈ locs, ev = Event.remove l := by
  intro locs
  induction locs generalizing st with
  | nil => intro ev h; simp [removeAll] at h
  | cons l ls ih =>
    intro ev h
    rw [removeAll] at h
    split at h
    · simp at h
      exact ⟨l, by simp, h⟩
    · simp at h
      rcases h with h | h
      · exact ⟨l, by simp, h⟩
      · obtain ⟨l2, hl2, hev⟩ := ih h
        exact ⟨l2, by simp [hl2], hev⟩

theorem removeAll_ok {st : Store} :
    ∀ {locs : List String} {n : Nat}, (removeAll st locs).result = .ok n →
      (removeAll st locs).trace = locs.map Event.remove ∧
      (removeAll st locs).store = locs.foldl Store.removeLoc st ∧
      n = locs.length := by
  intro locs
  induction locs generalizing st with
  | nil =>
    intro n h
    rw [removeAll] at h ⊢
    cases h
    exact ⟨rfl, rfl, rfl⟩
  | cons l ls ih =>
    intro n h
    rw [removeAll] at h ⊢
    split at h
    · exact absurd h (by simp)
    · rename_i hfail
      simp only [hfail, if_false] at h ⊢
      match hres : (removeAll (st.removeLoc l) ls).result with
      | .error e => rw [hres] at h; exact absurd h (by simp [Except.map])
      | .ok m =>
        rw [hres] at h
        simp [Except.map] at h
        obtain ⟨htr, hst, hn⟩ := ih hres
        subst hn
        refine ⟨by simp [htr], by simp [hst], by simp [← h]⟩

theorem removeAll_succeeds {st : Store} :
    ∀ {locs : List String}, (∀ l ∈ locs, l ∉ st.removeFails) →
      (removeAll st locs).result = .ok locs.length := by
  intro locs
  induction locs generalizing st with
  | nil => intro _; rfl
  | cons l ls ih =>
    intro h
    rw [removeAll]
    have hl : l ∉ st.removeFails := h l (by simp)
    simp only [hl, if_false]
    have : ∀ x ∈ ls, x ∉ (st.removeLoc l).removeFails := by
      intro x hx
      rw [removeLoc_removeFails]
      exact h x (by simp [hx])
    rw [ih this]
    simp [Except.map]

theorem removeAll_error {st : Store} :
    ∀ {locs : List String} {e : FuseErr}, (removeAll st locs).result = .error e →
      ∃ l ∈ locs, e = .storeErr l ∧ l ∈ st.removeFails ∧
        (removeAll st locs).trace.getLast? = some (Event.remove l) := by
  intro locs
  induction locs generalizing st with
  | nil => intro e h; exact absurd h (by simp [removeAll])
  | cons l ls ih =>
    intro e h
    rw [removeAll] at h ⊢
    split at h
    · rename_i hfail
      cases h
      exact ⟨l, by simp, rfl, hfail, by simp [hfail]⟩
    · rename_i hfail
      simp only [hfail, if_false] at h ⊢
      match hres : (removeAll (st.removeLoc l) ls).result with
      | .ok m => rw [hres] at h; exact absurd h (by simp [Except.map])
      | .error e2 =>
        rw [hres] at h
        simp [Except.map] at h
        subst h
        obtain ⟨l2, hl2, he2, hf2, hlast⟩ := ih hres
        rw [removeLoc_removeFails] at hf2
        refine ⟨l2, by simp [hl2], he2, hf2, ?_⟩
        have hne : (removeAll (st.removeLoc l) ls).trace ≠ [] := by
          intro hc
          rw [hc] at hlast
          simp at hlast
        rw [show Event.remove l :: (removeAll (st.removeLoc l) ls).trace =
          [Event.remove l] ++ (removeAll (st.removeLoc l) ls).trace from rfl]
        rw [List.getLast?_append_of_ne_nil _ hne]
        exact hlast

theorem removeAll_lookup_snaps (st : Store) (x : String) (locs : List String)
    (h : x ∉ locs) :
    lookupA (removeAll st locs).store.snaps x = lookupA st.snaps x := by
  induction locs generalizing st with
  | nil => rfl
  | cons l ls ih =>
    rw [removeAll]
    split
    · rfl
    · simp only
      have hx : x ∉ ls := fun hc => h (by simp [hc])
      rw [ih (st.removeLoc l) hx, lookupA_removeLoc_snaps (fun hc => h (by simp [hc]))]

/-! ## Run-level lemmas -/

theorem truncate_run_short {st : Store} {snapshots : List Snapshot}
    (h : snapshots.length ≤ 1) : truncate_run st snapshots = ⟨[], st, .ok []⟩ := by
  match snapshots with
  | [] => rfl
  | [_] => rfl
  | _ :: _ :: _ => simp at h

theorem block_delta_list_eq {st : Store} {cur : Snapshot} {hist : List Snapshot}
    {pb cb : List String}
    (hpb : (blocks_of st (seg_delta_of cur hist) []).result = .ok pb)
    (hcb : (blocks_of st cur.segments []).result = .ok cb) :
    block_delta_list st cur hist = strDiff pb cb := by
  simp [block_delta_list, block_delta_exc, hpb, hcb]

/-- Characterization of a successful run on a chain of length ≥ 2: the
result is the single exact-counts row, and the trace is the two read passes
followed by the three strictly sequential deletion phases, the snapshot
phase walking the history oldest-first. -/
theorem run_ok_spec {st : Store} {cur s1 : Snapshot} {rest : List Snapshot}
    {rows : List Row}
    (h : (truncate_run st (cur :: s1 :: rest)).result = .ok rows) :
    rows = [⟨(s1 :: rest).length, (seg_delta_of cur (s1 :: rest)).length,
            (block_delta_list st cur (s1 :: rest)).length⟩] ∧
    (truncate_run st (cur :: s1 :: rest)).trace =
      (seg_delta_of cur (s1 :: rest)).map Event.readSeg
      ++ cur.segments.map Event.readSeg
      ++ (block_delta_list st cur (s1 :: rest)).map Event.remove
      ++ (seg_delta_of cur (s1 :: rest)).map Event.remove
      ++ (s1 :: rest).reverse.map (fun s => Event.remove (snapshot_location s.snapshot_id)) := by
  simp only [truncate_run] at h ⊢
  cases hpb : (blocks_of st (seg_delta_of cur (s1 :: rest)) []).result with
  | error e => simp [hpb] at h
  | ok pb =>
    simp only [hpb] at h ⊢
    cases hcb : (blocks_of st cur.segments []).result with
    | error e => simp [hcb] at h
    | ok cb =>
      simp only [hcb] at h ⊢
      cases hr1 : (removeAll st (strDiff pb cb)).result with
      | error e => simp [hr1] at h
      | ok nb =>
        simp only [hr1] at h ⊢
        cases hr2 : (removeAll (removeAll st (strDiff pb cb)).store
            (seg_delta_of cur (s1 :: rest))).result with
        | error e => simp [hr2] at h
        | ok ns =>
          simp only [hr2] at h ⊢
          cases hr3 : (removeAll (removeAll (removeAll st (strDiff pb cb)).store
              (seg_delta_of cur (s1 :: rest))).store (snap_locs (s1 :: rest))).result with
          | error e => simp [hr3] at h
          | ok n3 =>
            simp only [hr3] at h ⊢
            obtain ⟨htr1, _, hnb⟩ := removeAll_ok hr1
            obtain ⟨htr2, _, hns⟩ := removeAll_ok hr2
            obtain ⟨htr3, _, _⟩ := removeAll_ok hr3
            have hbd := block_delta_list_eq hpb hcb
            constructor
            · simp at h
              rw [← h, hbd, hnb, hns]
              simp
            · rw [blocksOf_ok_trace hpb, blocksOf_ok_trace hcb, htr1, htr2, htr3, hbd]
              simp [snap_locs, List.map_map]

/-- Every removal attempted by a run on a nontrivial chain targets the
block delta, the segment delta, or a historical snapshot's location. -/
theorem remove_mem_trace {st : Store} {cur : Snapshot} {hist : List Snapshot} {l : String}
    (h : Event.remove l ∈ (truncate_run st (cur :: hist)).trace) :
    l ∈ block_delta_list st cur hist ∨ l ∈ seg_delta_of cur hist ∨
      ∃ s ∈ hist, l = snapshot_location s.snapshot_id := by
  match hist with
  | [] => rw [truncate_run_short (by simp)] at h; simp at h
  | s1 :: rest =>
    have hread : ∀ {tr : List Event}, Event.remove l ∈ tr →
        (∀ ev ∈ tr, ∃ l2, ev = Event.readSeg l2) → False := by
      intro tr hmem hall
      obtain ⟨l2, hev⟩ := hall _ hmem
      exact absurd hev (by simp)
    have hreads : ∀ {locs acc : List String}, Event.remove l ∈ (blocks_of st locs acc).trace →
        False := by
      intro locs acc hm
      exact hread hm (fun ev hev => (blocksOf_trace_reads hev).elim
        (fun l2 hl2 => ⟨l2, hl2.2⟩))
    have hsnaps : ∀ {st2 : Store}, Event.remove l ∈
        (removeAll st2 (snap_locs (s1 :: rest))).trace →
        ∃ s ∈ s1 :: rest, l = snapshot_location s.snapshot_id := by
      intro st2 hm
      obtain ⟨l2, hl2, hev⟩ := removeAll_trace_mem hm
      cases hev
      simp only [snap_locs, List.mem_map, List.mem_reverse] at hl2
      obtain ⟨s, hs, hsl⟩ := hl2
      exact ⟨s, hs, hsl.symm⟩
    simp only [truncate_run] at h
    cases hpb : (blocks_of st (seg_delta_of cur (s1 :: rest)) []).result with
    | error e =>
      simp only [hpb] at h
      exact (hreads h).elim
    | ok pb =>
      simp only [hpb] at h
      cases hcb : (blocks_of st cur.segments []).result with
      | error e =>
        simp only [hcb, List.mem_append] at h
        rcases h with h | h <;> exact (hreads h).elim
      | ok cb =>
        simp only [hcb] at h
        have hbd := block_delta_list_eq hpb hcb
        have hr1mem : ∀ {st2 : Store}, Event.remove l ∈ (removeAll st2 (strDiff pb cb)).trace →
            l ∈ block_delta_list st cur (s1 :: rest) := by
          intro st2 hm
          obtain ⟨l2, hl2, hev⟩ := removeAll_trace_mem hm
          cases hev
          exact hbd ▸ hl2
        have hr2mem : ∀ {st2 : Store}, Event.remove l ∈
            (removeAll st2 (seg_delta_of cur (s1 :: rest))).trace →
            l ∈ seg_delta_of cur (s1 :: rest) := by
          intro st2 hm
          obtain ⟨l2, hl2, hev⟩ := removeAll_trace_mem hm
          cases hev
          exact hl2
        cases hr1 : (removeAll st (strDiff pb cb)).result with
        | error e =>
          simp only [hr1, List.mem_append] at h
          rcases h with (h | h) | h
          · exact (hreads h).elim
          · exact (hreads h).elim
          · exact Or.inl (hr1mem h)
        | ok nb =>
          simp only [hr1] at h
          cases hr2 : (removeAll (removeAll st (strDiff pb cb)).store
              (seg_delta_of cur (s1 :: rest))).result with
          | error e =>
            simp only [hr2, List.mem_append] at h
            rcases h with ((h | h) | h) | h
            · exact (hreads h).elim
            · exact (hreads h).elim
            · exact Or.inl (hr1mem h)
            · exact Or.inr (Or.inl (hr2mem h))
          | ok ns =>
            simp only [hr2] at h
            cases hr3 : (removeAll (removeAll (removeAll st (strDiff pb cb)).store
                (seg_delta_of cur (s1 :: rest))).store (snap_locs (s1 :: rest))).result with
            | error e =>
              simp only [hr3, List.mem_append] at h
              rcases h with (((h | h) | h) | h) | h
              · exact (hreads h).elim
              · exact (hreads h).elim
              · exact Or.inl (hr1mem h)
              · exact Or.inr (Or.inl (hr2mem h))
              · exact Or.inr (Or.inr (hsnaps h))
            | ok n3 =>
              simp only [hr3, List.mem_append] at h
              rcases h with (((h | h) | h) | h) | h
              · exact (hreads h).elim
              · exact (hreads h).elim
              · exact Or.inl (hr1mem h)
              · exact Or.inr (Or.inl (hr2mem h))
              · exact Or.inr (Or.inr (hsnaps h))

/-- The trace of a deletion phase is always an initial portion of the
phase's target list, mapped to removal events. -/
theorem removeAll_trace_take (st : Store) (locs : List String) :
    ∃ k, (removeAll st locs).trace = (locs.take k).map Event.remove := by
  induction locs generalizing st with
  | nil => exact ⟨0, rfl⟩
  | cons l ls ih =>
    rw [removeAll]
    split
    · exact ⟨1, by simp⟩
    · obtain ⟨k, hk⟩ := ih (st.removeLoc l)
      exact ⟨k + 1, by simp [hk]⟩

theorem snapshot_location_inj {a b : String}
    (h : snapshot_location a = snapshot_location b) : a = b := by
  unfold snapshot_location at h
  have h2 := congrArg String.data h
  simp only [String.data_append] at h2
  exact String.ext (List.append_cancel_left h2)

/-- Every element of the resolved block delta is a block location of some
decodable segment object in the store. -/
theorem block_delta_list_store {st : Store} {cur : Snapshot} {hist : List Snapshot}
    {l : String} (h : l ∈ block_delta_list st cur hist) :
    ∃ p ∈ st.segs, l ∈ p.2.okBlockLocs := by
  unfold block_delta_list block_delta_exc at h
  cases hpb : (blocks_of st (seg_delta_of cur hist) []).result with
  | error e => simp [hpb] at h
  | ok pb =>
    simp only [hpb] at h
    cases hcb : (blocks_of st cur.segments []).result with
    | error e => simp [hcb] at h
    | ok cb =>
      simp only [hcb] at h
      have hl : l ∈ pb := (mem_strDiff.1 h).1
      rcases blocksOf_ok_mem hpb l hl with hacc | hst
      · simp at hacc
      · exact hst

/-- A run never changes the snapshot record stored at a location it does
not remove. -/
theorem run_lookup_snaps {st : Store} {cur : Snapshot} {hist : List Snapshot} {x : String}
    (hb : x ∉ block_delta_list st cur hist)
    (hs : x ∉ seg_delta_of cur hist)
    (hsnap : x ∉ snap_locs hist) :
    lookupA (truncate_run st (cur :: hist)).store.snaps x = lookupA st.snaps x := by
  match hist with
  | [] => rw [truncate_run_short (by simp)]
  | s1 :: rest =>
    simp only [truncate_run]
    cases hpb : (blocks_of st (seg_delta_of cur (s1 :: rest)) []).result with
    | error e => simp only [hpb]
    | ok pb =>
      simp only [hpb]
      cases hcb : (blocks_of st cur.segments []).result with
      | error e => simp only [hcb]
      | ok cb =>
        simp only [hcb]
        have hbd := block_delta_list_eq hpb hcb
        have hb2 : x ∉ strDiff pb cb := hbd ▸ hb
        have e1 := removeAll_lookup_snaps st x (strDiff pb cb) hb2
        have e2 := removeAll_lookup_snaps (removeAll st (strDiff pb cb)).store x
          (seg_delta_of cur (s1 :: rest)) hs
        have e3 := removeAll_lookup_snaps
          (removeAll (removeAll st (strDiff pb cb)).store
            (seg_delta_of cur (s1 :: rest))).store x
          (snap_locs (s1 :: rest)) hsnap
        cases hr1 : (removeAll st (strDiff pb cb)).result with
        | error e => simp only [hr1]; exact e1
        | ok nb =>
          simp only [hr1]
          cases hr2 : (removeAll (removeAll st (strDiff pb cb)).store
              (seg_delta_of cur (s1 :: rest))).result with
          | error e => simp only [hr2]; rw [e2, e1]
          | ok ns =>
            simp only [hr2]
            cases hr3 : (removeAll (removeAll (removeAll st (strDiff pb cb)).store
                (seg_delta_of cur (s1 :: rest))).store (snap_locs (s1 :: rest))).result with
            | error e => simp only [hr3]; rw [e3, e2, e1]
            | ok n3 => simp only [hr3]; rw [e3, e2, e1]

/-! ## Concrete scenario data (spec §8, Scenario B and variants) -/

/-- Segment `a` of Scenario B, with single block `x`. -/
def segAinfo : SegmentInfo := ⟨[⟨⟨"x"⟩⟩]⟩

/-- Segment `b` of Scenario B, with single block `y`. -/
def segBinfo : SegmentInfo := ⟨[⟨⟨"y"⟩⟩]⟩

/-- Scenario B current snapshot `S0{segments:[b]}`. -/
def snapB0 : Snapshot := ⟨"s0", ["b"], some "_ss/s1"⟩

/-- Scenario B historical snapshot `S1{segments:[a,b]}`. -/
def snapB1 : Snapshot := ⟨"s1", ["a", "b"], none⟩

/-- Scenario B store: both snapshot records, both segments, both blocks,
all removals succeeding. -/
def storeB : Store :=
  ⟨[("_ss/s0", snapB0), ("_ss/s1", snapB1)],
   [("a", .ok segAinfo), ("b", .ok segBinfo)], ["x", "y"], []⟩

/-- Scenario D variant: segment `a` is stored but corrupt. -/
def storeC : Store :=
  ⟨[("_ss/s0", snapB0), ("_ss/s1", snapB1)],
   [("a", .corrupt), ("b", .ok segBinfo)], ["x", "y"], []⟩

/-- Removal-failure variant: removing block `x` fails with a transient
store error. -/
def storeF : Store :=
  ⟨[("_ss/s0", snapB0), ("_ss/s1", snapB1)],
   [("a", .ok segAinfo), ("b", .ok segBinfo)], ["x", "y"], ["x"]⟩

/-- A once-written table: a single snapshot record and nothing else, so the
reconstructed chain has length exactly 1. -/
def storeOne : Store := ⟨[("_ss/s1", snapB1)], [], [], []⟩

/-- Every store call of the Walker is a snapshot-record read. -/
theorem snapshot_history_trace_reads {st : Store} :
    ∀ {loc : Option String} {fuel : Nat} {ev : Event},
      ev ∈ (snapshot_history st loc fuel).trace → ∃ l, ev = Event.readSnap l := by
  intro loc fuel
  induction fuel generalizing loc with
  | zero =>
    intro ev h
    cases loc <;> simp [snapshot_history] at h
  | succ n ih =>
    intro ev h
    cases loc with
    | none => simp [snapshot_history] at h
    | some l =>
      simp only [snapshot_history] at h
      cases hl : lookupA st.snaps l with
      | none =>
        simp only [hl] at h
        simp at h
        exact ⟨l, h⟩
      | some s =>
        simp only [hl] at h
        cases hr : (snapshot_history st s.prev_snapshot_location n).result with
        | error e =>
          simp only [hr] at h
          simp only [List.mem_cons] at h
          rcases h with h | h
          · exact ⟨l, h⟩
          · exact ih h
        | ok chain =>
          simp only [hr] at h
          simp only [List.mem_cons] at h
          rcases h with h | h
          · exact ⟨l, h⟩
          · exact ih h

/-! ## Claims -/

/-- Claim C1 (reachability soundness): no segment location of the current
snapshot appears in `seg_delta`; given the resolved block sets of a chain,
no block location reachable from the current snapshot's segments appears in
`block_delta`; and such a shared block is never the target of a removal in
the run, provided it does not collide with a segment-delta location or a
snapshot location. -/
theorem claim_c1_reachability_sound (st : Store) (cur : Snapshot) (hist : List Snapshot)
    (prev_blocks current_blocks : List String)
    (hpb : (blocks_of st (seg_delta_of cur hist) []).result = .ok prev_blocks)
    (hcb : (blocks_of st cur.segments []).result = .ok current_blocks) :
    (∀ l ∈ cur.segments, l ∉ seg_delta_of cur hist) ∧
    (∀ b ∈ current_blocks, b ∉ strDiff prev_blocks current_blocks) ∧
    (∀ b ∈ current_blocks, b ∉ seg_delta_of cur hist → b ∉ snap_locs hist →
      Event.remove b ∉ (truncate_run st (cur :: hist)).trace) := by
  refine ⟨?_, ?_, ?_⟩
  · intro l hl hmem
    exact (mem_seg_delta.1 hmem).2 hl
  · intro b hb hmem
    exact (mem_strDiff.1 hmem).2 hb
  · intro b hb hseg hsnap hmem
    rcases remove_mem_trace hmem with h | h | h
    · rw [block_delta_list_eq hpb hcb] at h
      exact (mem_strDiff.1 h).2 hb
    · exact hseg h
    · obtain ⟨s, hs, hbl⟩ := h
      refine hsnap ?_
      rw [hbl]
      simp only [snap_locs, List.mem_map, List.mem_reverse]
      exact ⟨s, hs, rfl⟩

/-- Witness for C1 at Scenario B: the shared segment `b` is not in the
segment delta, and the current block `y` is not in the block delta. -/
theorem claim_c1_witness :
    ((blocks_of storeB (seg_delta_of snapB0 [snapB1]) []).result = .ok ["x"] ∧
     (blocks_of storeB snapB0.segments []).result = .ok ["y"] ∧
     "b" ∈ snapB0.segments ∧ "y" ∈ ["y"]) ∧
    ("b" ∉ seg_delta_of snapB0 [snapB1] ∧ "y" ∉ strDiff ["x"] ["y"]) := by
  refine ⟨⟨by decide, by decide, by decide, by decide⟩, ?_, ?_⟩
  · exact (claim_c1_reachability_sound storeB snapB0 [snapB1] ["x"] ["y"]
      (by decide) (by decide)).1 "b" (by decide)
  · exact (claim_c1_reachability_sound storeB snapB0 [snapB1] ["x"] ["y"]
      (by decide) (by decide)).2.1 "y" (by decide)

/-- Claim C4 (reachability completeness): a segment location referenced by
some historical snapshot and absent from the current snapshot's segments is
in `seg_delta`, exactly once no matter how many historical snapshots
reference it. -/
theorem claim_c4_seg_delta_complete (cur : Snapshot) (hist : List Snapshot) (l : String)
    (hl : ∃ s ∈ hist, l ∈ s.segments) (hcur : l ∉ cur.segments) :
    l ∈ seg_delta_of cur hist ∧ (seg_delta_of cur hist).count l = 1 := by
  have hmem : l ∈ seg_delta_of cur hist := mem_seg_delta.2 ⟨hl, hcur⟩
  exact ⟨hmem, List.count_eq_one_of_mem nodup_seg_delta hmem⟩

/-- Witness for C4: segment `a` of Scenario B, referenced twice in history
via a duplicated historical snapshot, is in the delta exactly once. -/
theorem claim_c4_witness :
    ((∃ s ∈ [snapB1, snapB1], "a" ∈ s.segments) ∧ "a" ∉ snapB0.segments) ∧
    ("a" ∈ seg_delta_of snapB0 [snapB1, snapB1] ∧
     (seg_delta_of snapB0 [snapB1, snapB1]).count "a" = 1) :=
  ⟨⟨⟨snapB1, by decide, by decide⟩, by decide⟩,
   claim_c4_seg_delta_complete snapB0 [snapB1, snapB1] "a"
     ⟨snapB1, by decide, by decide⟩ (by decide)⟩

/-- Claim C5, counterexample: a once-written table, whose reconstructed
chain has length exactly 1, returns zero rows but does not perform zero
store calls — the Walker reads the current snapshot record from the store,
so the operation makes one store call. -/
theorem claim_c5_counterexample :
    (truncate_read storeOne (some "_ss/s1")).result = .ok [] ∧
    (truncate_read storeOne (some "_ss/s1")).trace = [Event.readSnap "_ss/s1"] ∧
    ¬ (truncate_read storeOne (some "_ss/s1")).trace = [] := by
  exact ⟨by decide, by decide, by decide⟩

/-- Claim C5 as amended: on a chain of length at most 1 the operation
returns an empty result set of zero rows (not a zero-valued row) and
leaves the store unchanged; it issues no removal and no segment read — its
trace is exactly the Walker's snapshot-record reads — and for a
never-written table (no recorded snapshot location) it performs zero store
calls. -/
theorem claim_c5_trivial_noop_amended (st : Store) (loc : Option String)
    (chain : List Snapshot)
    (hw : (snapshot_history st loc (st.snaps.length + 1)).result = .ok chain)
    (h : chain.length ≤ 1) :
    (truncate_read st loc).result = .ok [] ∧
    (truncate_read st loc).store = st ∧
    (truncate_read st loc).trace = (snapshot_history st loc (st.snaps.length + 1)).trace ∧
    (∀ ev ∈ (truncate_read st loc).trace, ∃ l, ev = Event.readSnap l) ∧
    (loc = none → (truncate_read st loc).trace = []) := by
  have key : truncate_read st loc
      = ⟨(snapshot_history st loc (st.snaps.length + 1)).trace, st, .ok []⟩ := by
    simp only [truncate_read, hw, truncate_run_short h, List.append_nil]
  refine ⟨by rw [key], by rw [key], by rw [key], ?_, ?_⟩
  · rw [key]
    exact fun ev hev => snapshot_history_trace_reads hev
  · intro hnone
    subst hnone
    rw [key]
    rfl

/-- Witness for the amended C5: the once-written table returns zero rows
with its store unchanged. -/
theorem claim_c5_witness :
    ((snapshot_history storeOne (some "_ss/s1") (storeOne.snaps.length + 1)).result
        = .ok [snapB1] ∧ ([snapB1] : List Snapshot).length ≤ 1) ∧
    ((truncate_read storeOne (some "_ss/s1")).result = .ok [] ∧
     (truncate_read storeOne (some "_ss/s1")).store = storeOne) :=
  ⟨⟨by decide, by decide⟩,
   (claim_c5_trivial_noop_amended storeOne (some "_ss/s1") [snapB1]
     (by decide) (by decide)).1,
   (claim_c5_trivial_noop_amended storeOne (some "_ss/s1") [snapB1]
     (by decide) (by decide)).2.1⟩

/-- Claim C6 (Scenario B): on the chain `[S0{segments:[b]},
S1{segments:[a,b]}]` with blocks `x` of `a` and `y` of `b`, the run computes
`seg_delta = {a}`, `block_delta = {x}` and returns the single row
`{snapshot_removed: 1, segment_removed: 1, block_removed: 1}`. -/
theorem claim_c6_scenario_b :
    seg_delta_of snapB0 [snapB1] = ["a"] ∧
    block_delta_list storeB snapB0 [snapB1] = ["x"] ∧
    (truncate_run storeB [snapB0, snapB1]).result = .ok [⟨1, 1, 1⟩] := by
  refine ⟨by decide, ?_, ?_⟩ <;> rfl

/-- Claim C2 (deletion ordering): once the deletion phase is reached (both
block-set reads succeeded), the run's trace is the two read passes followed
by an initial portion of the block-delta removals, then an initial portion
of the segment-delta removals, then an initial portion of the
snapshot-record removals taken oldest-first from the reversed history; a
later phase only starts once the previous phase has completed in full, so
the three phases are strictly sequential and snapshot records are removed
strictly from oldest to newest. -/
theorem claim_c2_deletion_ordering (st : Store) (cur s1 : Snapshot) (rest : List Snapshot)
    (pb cb : List String)
    (hpb : (blocks_of st (seg_delta_of cur (s1 :: rest)) []).result = .ok pb)
    (hcb : (blocks_of st cur.segments []).result = .ok cb) :
    ∃ k1 k2 k3,
      (truncate_run st (cur :: s1 :: rest)).trace =
        (seg_delta_of cur (s1 :: rest)).map Event.readSeg
        ++ cur.segments.map Event.readSeg
        ++ ((strDiff pb cb).take k1).map Event.remove
        ++ ((seg_delta_of cur (s1 :: rest)).take k2).map Event.remove
        ++ ((snap_locs (s1 :: rest)).take k3).map Event.remove ∧
      (k1 < (strDiff pb cb).length → k2 = 0 ∧ k3 = 0) ∧
      (k2 < (seg_delta_of cur (s1 :: rest)).length → k3 = 0) := by
  have htr1 := blocksOf_ok_trace hpb
  have htr2 := blocksOf_ok_trace hcb
  simp only [truncate_run, hpb, hcb]
  cases hr1 : (removeAll st (strDiff pb cb)).result with
  | error e =>
    obtain ⟨k1, hk1⟩ := removeAll_trace_take st (strDiff pb cb)
    exact ⟨k1, 0, 0, by simp [htr1, htr2, hk1], fun _ => ⟨rfl, rfl⟩, fun _ => rfl⟩
  | ok nb =>
    obtain ⟨htk1, _, _⟩ := removeAll_ok hr1
    cases hr2 : (removeAll (removeAll st (strDiff pb cb)).store
        (seg_delta_of cur (s1 :: rest))).result with
    | error e =>
      obtain ⟨k2, hk2⟩ := removeAll_trace_take
        (removeAll st (strDiff pb cb)).store
        (seg_delta_of cur (s1 :: rest))
      refine ⟨(strDiff pb cb).length, k2, 0,
        by simp [htr1, htr2, htk1, hk2], fun hlt => absurd hlt (by simp), fun _ => rfl⟩
    | ok ns =>
      obtain ⟨htk2, _, _⟩ := removeAll_ok hr2
      cases hr3 : (removeAll (removeAll (removeAll st (strDiff pb cb)).store
          (seg_delta_of cur (s1 :: rest))).store (snap_locs (s1 :: rest))).result with
      | error e =>
        obtain ⟨k3, hk3⟩ := removeAll_trace_take
          (removeAll (removeAll st (strDiff pb cb)).store
            (seg_delta_of cur (s1 :: rest))).store
          (snap_locs (s1 :: rest))
        refine ⟨(strDiff pb cb).length, (seg_delta_of cur (s1 :: rest)).length, k3,
          by simp [htr1, htr2, htk1, htk2, hk3],
          fun hlt => absurd hlt (by simp), fun hlt => absurd hlt (by simp)⟩
      | ok n3 =>
        obtain ⟨htk3, _, _⟩ := removeAll_ok hr3
        refine ⟨(strDiff pb cb).length, (seg_delta_of cur (s1 :: rest)).length,
          (snap_locs (s1 :: rest)).length,
          by simp [htr1, htr2, htk1, htk2, htk3],
          fun hlt => absurd hlt (by simp), fun hlt => absurd hlt (by simp)⟩

/-- Witness for C2 at Scenario B. -/
theorem claim_c2_witness :
    ((blocks_of storeB (seg_delta_of snapB0 [snapB1]) []).result = .ok ["x"] ∧
     (blocks_of storeB snapB0.segments []).result = .ok ["y"]) ∧
    (∃ k1 k2 k3,
      (truncate_run storeB [snapB0, snapB1]).trace =
        (seg_delta_of snapB0 [snapB1]).map Event.readSeg
        ++ snapB0.segments.map Event.readSeg
        ++ ((strDiff ["x"] ["y"]).take k1).map Event.remove
        ++ ((seg_delta_of snapB0 [snapB1]).take k2).map Event.remove
        ++ ((snap_locs [snapB1]).take k3).map Event.remove ∧
      (k1 < (strDiff ["x"] ["y"]).length → k2 = 0 ∧ k3 = 0) ∧
      (k2 < (seg_delta_of snapB0 [snapB1]).length → k3 = 0)) :=
  ⟨⟨by decide, by decide⟩,
   claim_c2_deletion_ordering storeB snapB0 snapB1 [] ["x"] ["y"] (by decide) (by decide)⟩

/-- Claim C10 (exact count semantics): a successful run on a chain of
length n ≥ 2 returns exactly one row, with `snapshot_removed` = n − 1,
`segment_removed` the size of the segment delta and `block_removed` the
size of the block delta; and it removes every historical snapshot record,
so even with empty deltas the result is the row and never zero rows. -/
theorem claim_c10_exact_counts (st : Store) (cur s1 : Snapshot) (rest : List Snapshot)
    (rows : List Row)
    (h : (truncate_run st (cur :: s1 :: rest)).result = .ok rows) :
    rows = [⟨(s1 :: rest).length, (seg_delta_of cur (s1 :: rest)).length,
            (block_delta_list st cur (s1 :: rest)).length⟩] ∧
    ∀ s ∈ s1 :: rest,
      Event.remove (snapshot_location s.snapshot_id) ∈
        (truncate_run st (cur :: s1 :: rest)).trace := by
  obtain ⟨hrows, htr⟩ := run_ok_spec h
  refine ⟨hrows, ?_⟩
  intro s hs
  rw [htr]
  simp only [List.mem_append, List.mem_map, List.mem_reverse]
  exact Or.inr ⟨s, hs, rfl⟩

/-- Witness for C10: an empty-delta chain (both snapshots share segment
`b`) still removes the historical record and returns the row `{1, 0, 0}`. -/
theorem claim_c10_witness :
    ((truncate_run storeB [⟨"s0", ["b"], some "_ss/s1"⟩, ⟨"s1", ["b"], none⟩]).result
        = .ok [⟨1, 0, 0⟩]) ∧
    ([(⟨1, 0, 0⟩ : Row)] =
      [⟨[(⟨"s1", ["b"], none⟩ : Snapshot)].length,
        (seg_delta_of ⟨"s0", ["b"], some "_ss/s1"⟩ [⟨"s1", ["b"], none⟩]).length,
        (block_delta_list storeB ⟨"s0", ["b"], some "_ss/s1"⟩ [⟨"s1", ["b"], none⟩]).length⟩] ∧
     Event.remove (snapshot_location "s1") ∈
       (truncate_run storeB [⟨"s0", ["b"], some "_ss/s1"⟩, ⟨"s1", ["b"], none⟩]).trace) := by
  refine ⟨by decide, ?_, ?_⟩
  · exact (claim_c10_exact_counts storeB ⟨"s0", ["b"], some "_ss/s1"⟩ ⟨"s1", ["b"], none⟩ []
      [⟨1, 0, 0⟩] (by decide)).1
  · exact (claim_c10_exact_counts storeB ⟨"s0", ["b"], some "_ss/s1"⟩ ⟨"s1", ["b"], none⟩ []
      [⟨1, 0, 0⟩] (by decide)).2 ⟨"s1", ["b"], none⟩ (by decide)

/-- Claim C3 (pre-deletion failure atomicity): if resolving the block sets
of `seg_delta` or of the current snapshot's segments fails (missing or
corrupt segment), the run returns that error, the store is unchanged, and
the trace holds only reads — no removal was issued, because both block-set
reads complete before the first removal. -/
theorem claim_c3_predeletion_atomic (st : Store) (cur s1 : Snapshot) (rest : List Snapshot)
    (e : FuseErr) (h : block_delta_exc st cur (s1 :: rest) = .error e) :
    (truncate_run st (cur :: s1 :: rest)).result = .error e ∧
    (truncate_run st (cur :: s1 :: rest)).store = st ∧
    ∀ ev ∈ (truncate_run st (cur :: s1 :: rest)).trace, ∃ l, ev = Event.readSeg l := by
  unfold block_delta_exc at h
  simp only [truncate_run]
  cases hpb : (blocks_of st (seg_delta_of cur (s1 :: rest)) []).result with
  | error e2 =>
    simp only [hpb] at h ⊢
    injection h with h2
    subst h2
    refine ⟨rfl, trivial, ?_⟩
    intro ev hev
    obtain ⟨l, _, h2⟩ := blocksOf_trace_reads hev
    exact ⟨l, h2⟩
  | ok pb =>
    simp only [hpb] at h ⊢
    cases hcb : (blocks_of st cur.segments []).result with
    | error e2 =>
      simp only [hcb] at h ⊢
      injection h with h2
      subst h2
      refine ⟨rfl, trivial, ?_⟩
      intro ev hev
      simp only [List.mem_append] at hev
      rcases hev with hev | hev <;>
        · obtain ⟨l, _, h2⟩ := blocksOf_trace_reads hev
          exact ⟨l, h2⟩
    | ok cb =>
      simp only [hcb] at h
      exact absurd h (by simp)

/-- Witness for C3 (Scenario D): with segment `a` stored corrupt, the run
fails with `metadataCorrupt` and removes nothing. -/
theorem claim_c3_witness :
    (block_delta_exc storeC snapB0 [snapB1] = .error (.metadataCorrupt "a")) ∧
    ((truncate_run storeC [snapB0, snapB1]).result = .error (.metadataCorrupt "a") ∧
     (truncate_run storeC [snapB0, snapB1]).store = storeC) := by
  refine ⟨by decide, ?_, ?_⟩
  · exact (claim_c3_predeletion_atomic storeC snapB0 snapB1 []
      (.metadataCorrupt "a") (by decide)).1
  · exact (claim_c3_predeletion_atomic storeC snapB0 snapB1 []
      (.metadataCorrupt "a") (by decide)).2.1

/-- Claim C7 (no partial counts on failure): if a run fails with a store
error — the error a failed removal surfaces — then the failing location is
one whose removal fails, the failing removal attempt is the last store call
of the run (nothing further is attempted), and the result carries the
underlying error rather than any counts. -/
theorem claim_c7_no_partial_counts (st : Store) (snapshots : List Snapshot) (l : String)
    (h : (truncate_run st snapshots).result = .error (.storeErr l)) :
    l ∈ st.removeFails ∧
    (truncate_run st snapshots).trace.getLast? = some (Event.remove l) := by
  match snapshots with
  | [] => rw [truncate_run_short (by simp)] at h; exact absurd h (by simp)
  | [s] => rw [truncate_run_short (by simp)] at h; exact absurd h (by simp)
  | cur :: s1 :: rest =>
    simp only [truncate_run] at h ⊢
    cases hpb : (blocks_of st (seg_delta_of cur (s1 :: rest)) []).result with
    | error e2 =>
      simp only [hpb] at h
      injection h with h2
      obtain ⟨l2, h3⟩ := blocksOf_error_kind hpb
      rcases h3 with h3 | h3 <;> rw [h2] at h3 <;> exact FuseErr.noConfusion h3
    | ok pb =>
      simp only [hpb] at h ⊢
      cases hcb : (blocks_of st cur.segments []).result with
      | error e2 =>
        simp only [hcb] at h
        injection h with h2
        obtain ⟨l2, h3⟩ := blocksOf_error_kind hcb
        rcases h3 with h3 | h3 <;> rw [h2] at h3 <;> exact FuseErr.noConfusion h3
      | ok cb =>
        simp only [hcb] at h ⊢
        cases hr1 : (removeAll st (strDiff pb cb)).result with
        | error e2 =>
          simp only [hr1] at h ⊢
          injection h with h2
          obtain ⟨l2, _, he2, hf2, hlast⟩ := removeAll_error hr1
          rw [he2] at h2
          injection h2 with h2
          subst h2
          have hne : (removeAll st (strDiff pb cb)).trace ≠ [] := by
            intro hc
            rw [hc] at hlast
            simp at hlast
          refine ⟨hf2, ?_⟩
          rw [List.getLast?_append_of_ne_nil _ hne]
          exact hlast
        | ok nb =>
          simp only [hr1] at h ⊢
          cases hr2 : (removeAll (removeAll st (strDiff pb cb)).store
              (seg_delta_of cur (s1 :: rest))).result with
          | error e2 =>
            simp only [hr2] at h ⊢
            injection h with h2
            obtain ⟨l2, _, he2, hf2, hlast⟩ := removeAll_error hr2
            rw [he2] at h2
            injection h2 with h2
            subst h2
            rw [removeAll_removeFails] at hf2
            have hne : (removeAll (removeAll st (strDiff pb cb)).store
                (seg_delta_of cur (s1 :: rest))).trace ≠ [] := by
              intro hc
              rw [hc] at hlast
              simp at hlast
            refine ⟨hf2, ?_⟩
            rw [List.getLast?_append_of_ne_nil _ hne]
            exact hlast
          | ok ns =>
            simp only [hr2] at h ⊢
            cases hr3 : (removeAll (removeAll (removeAll st (strDiff pb cb)).store
                (seg_delta_of cur (s1 :: rest))).store (snap_locs (s1 :: rest))).result with
            | error e2 =>
              simp only [hr3] at h ⊢
              injection h with h2
              obtain ⟨l2, _, he2, hf2, hlast⟩ := removeAll_error hr3
              rw [he2] at h2
              injection h2 with h2
              subst h2
              rw [removeAll_removeFails, removeAll_removeFails] at hf2
              have hne : (removeAll (removeAll (removeAll st (strDiff pb cb)).store
                  (seg_delta_of cur (s1 :: rest))).store (snap_locs (s1 :: rest))).trace ≠ [] := by
                intro hc
                rw [hc] at hlast
                simp at hlast
              refine ⟨hf2, ?_⟩
              rw [List.getLast?_append_of_ne_nil _ hne]
              exact hlast
            | ok n3 =>
              simp only [hr3] at h
              exact absurd h (by simp)

/-- Witness for C7: removal of block `x` fails; the run surfaces the store
error, the failing attempt is the last store call, and no counts row is
produced. -/
theorem claim_c7_witness :
    ((truncate_run storeF [snapB0, snapB1]).result = .error (.storeErr "x")) ∧
    ("x" ∈ storeF.removeFails ∧
     (truncate_run storeF [snapB0, snapB1]).trace.getLast? = some (Event.remove "x")) :=
  ⟨by decide, claim_c7_no_partial_counts storeF [snapB0, snapB1] "x" (by decide)⟩

/-- Claim C9 (current snapshot never deleted): under the chain's no-cycle
invariant (no historical snapshot shares the current snapshot's id) and
disjointness of the snapshot-location namespace from segment and block
locations, no removal in the run — complete or interrupted — ever targets
the current snapshot's own location, and the snapshot record stored there
is untouched. -/
theorem claim_c9_current_preserved (st : Store) (cur : Snapshot) (hist : List Snapshot)
    (hid : ∀ s ∈ hist, s.snapshot_id ≠ cur.snapshot_id)
    (hseg : ∀ s ∈ hist, snapshot_location cur.snapshot_id ∉ s.segments)
    (hblk : ∀ p ∈ st.segs, snapshot_location cur.snapshot_id ∉ p.2.okBlockLocs) :
    Event.remove (snapshot_location cur.snapshot_id) ∉ (truncate_run st (cur :: hist)).trace ∧
    lookupA (truncate_run st (cur :: hist)).store.snaps (snapshot_location cur.snapshot_id)
      = lookupA st.snaps (snapshot_location cur.snapshot_id) := by
  have hnb : snapshot_location cur.snapshot_id ∉ block_delta_list st cur hist := by
    intro hc
    obtain ⟨p, hp, hpl⟩ := block_delta_list_store hc
    exact hblk p hp hpl
  have hns : snapshot_location cur.snapshot_id ∉ seg_delta_of cur hist := by
    intro hc
    obtain ⟨⟨s, hs, hseg2⟩, _⟩ := mem_seg_delta.1 hc
    exact hseg s hs hseg2
  have hnsnap : snapshot_location cur.snapshot_id ∉ snap_locs hist := by
    intro hc
    simp only [snap_locs, List.mem_map, List.mem_reverse] at hc
    obtain ⟨s, hs, hsl⟩ := hc
    exact hid s hs (snapshot_location_inj hsl)
  refine ⟨?_, run_lookup_snaps hnb hns hnsnap⟩
  intro hmem
  rcases remove_mem_trace hmem with h | h | h
  · exact hnb h
  · exact hns h
  · obtain ⟨s, hs, hsl⟩ := h
    exact hid s hs (snapshot_location_inj hsl.symm)

/-- Witness for C9 at Scenario B: the current snapshot's record at
`_ss/s0` is never removed and survives the run. -/
theorem claim_c9_witness :
    ((∀ s ∈ [snapB1], s.snapshot_id ≠ snapB0.snapshot_id) ∧
     (∀ s ∈ [snapB1], snapshot_location snapB0.snapshot_id ∉ s.segments) ∧
     (∀ p ∈ storeB.segs, snapshot_location snapB0.snapshot_id ∉ p.2.okBlockLocs)) ∧
    (Event.remove (snapshot_location snapB0.snapshot_id) ∉
        (truncate_run storeB [snapB0, snapB1]).trace ∧
     lookupA (truncate_run storeB [snapB0, snapB1]).store.snaps
        (snapshot_location snapB0.snapshot_id)
       = lookupA storeB.snaps (snapshot_location snapB0.snapshot_id)) :=
  ⟨⟨by decide, by decide, by decide⟩,
   claim_c9_current_preserved storeB snapB0 [snapB1] (by decide) (by decide) (by decide)⟩

/-- A run of the whole operation that returns zero rows did nothing beyond
the Walker's reads: the chain was trivial, the store is unchanged, and the
trace is exactly the Walker's trace. -/
theorem truncate_read_ok_nil {st : Store} {loc : Option String}
    (h : (truncate_read st loc).result = .ok []) :
    truncate_read st loc
      = ⟨(snapshot_history st loc (st.snaps.length + 1)).trace, st, .ok []⟩ := by
  cases hw : (snapshot_history st loc (st.snaps.length + 1)).result with
  | error e =>
    unfold truncate_read at h
    rw [hw] at h
    exact absurd h (by simp)
  | ok chain =>
    unfold truncate_read at h
    rw [hw] at h
    have h2 : (truncate_run st chain).result = .ok [] := h
    have hlen : chain.length ≤ 1 := by
      match chain with
      | [] => simp
      | [s] => simp
      | c :: s1 :: rest =>
        obtain ⟨hrows, _⟩ := run_ok_spec h2
        exact absurd hrows (by simp)
    simp only [truncate_read, hw, truncate_run_short hlen, List.append_nil]

/-- Claim C8, counterexample: on the Scenario B table the first run
succeeds, but — because the deleted snapshot record `_ss/s1` is still the
target of the current snapshot's back-reference — the immediate re-run
fails with `NotFound` instead of succeeding with zero rows. -/
theorem claim_c8_counterexample :
    (truncate_read storeB (some "_ss/s0")).result = .ok [⟨1, 1, 1⟩] ∧
    (truncate_read (truncate_read storeB (some "_ss/s0")).store (some "_ss/s0")).result
      = .error (.notFound "_ss/s1") ∧
    (truncate_read (truncate_read storeB (some "_ss/s0")).store (some "_ss/s0")).result
      ≠ .ok [] := by
  exact ⟨by decide, by decide, by decide⟩

/-- Claim C8 as amended: immediately re-running the operation returns zero
rows exactly when the previous run itself was a zero-row no-op (chain of
length ≤ 1): such a first run leaves the store unchanged, the re-run is
identical to it — zero rows again — and neither run makes any store call
beyond the Walker's snapshot reads.  (After a successful truncation of a
chain of length ≥ 2, the re-run instead fails with `NotFound`, since the
current snapshot's back-reference now points at a deleted snapshot
record.) -/
theorem claim_c8_rerun_amended (st : Store) (loc : Option String)
    (h : (truncate_read st loc).result = .ok []) :
    (truncate_read st loc).store = st ∧
    truncate_read ((truncate_read st loc).store) loc = truncate_read st loc ∧
    (truncate_read ((truncate_read st loc).store) loc).result = .ok [] ∧
    (∀ ev ∈ (truncate_read ((truncate_read st loc).store) loc).trace,
      ∃ l, ev = Event.readSnap l) := by
  have key := truncate_read_ok_nil h
  have hstore : (truncate_read st loc).store = st := by rw [key]
  refine ⟨hstore, by rw [hstore], ?_, ?_⟩
  · rw [hstore]
    exact h
  · rw [hstore, key]
    exact fun ev hev => snapshot_history_trace_reads hev

/-- Witness for the amended C8: the once-written table; the re-run repeats
the zero-row no-op. -/
theorem claim_c8_witness :
    ((truncate_read storeOne (some "_ss/s1")).result = .ok []) ∧
    ((truncate_read storeOne (some "_ss/s1")).store = storeOne ∧
     truncate_read ((truncate_read storeOne (some "_ss/s1")).store) (some "_ss/s1")
       = truncate_read storeOne (some "_ss/s1")) :=
  ⟨by decide,
   (claim_c8_rerun_amended storeOne (some "_ss/s1") (by decide)).1,
   (claim_c8_rerun_amended storeOne (some "_ss/s1") (by decide)).2.1⟩

end FuseTruncate
